import Mathlib

/-!
# Verification of `CompareBranchNode` (src/views/nodes/compareBranchNode.ts)

Shallow embedding of the comparison state and query-composition layer of the
branch-comparison node: ahead/behind pair accessors, merge-base fallback,
working-tree diff overlay, paged commit query results, and the persisted
compare-with store (load / update / clear / refresh).
-/

namespace CompareBranch

/-- The `ViewShowBranchComparison` enumeration from the configuration:
comparison mode of a branch node (`'branch'` or `'working'`). -/
inductive ViewShowBranchComparison where
  | branch
  | working
deriving DecidableEq, Repr

/-- Structure `BranchComparison` (from constants.ts, as used by this file):
`{ ref: string, notation: '..' | '...' | undefined, type: ... }`.
The `notation` field is called `dots` here. -/
structure BranchComparison where
  ref : String
  dots : Option String
  type : ViewShowBranchComparison
deriving DecidableEq, Repr

/-- A file-status entry as returned by `getDiffStatus`: we keep the
`fileName` used as merge key and the status. -/
structure GitFile where
  fileName : String
  status : String
deriving DecidableEq, Repr

/-- JavaScript `Array.prototype.findIndex` over a list: index of the first
element satisfying `p`, or `none`. -/
def findIndex (p : α → Bool) : List α → Option Nat
  | [] => none
  | x :: xs => if p x then some 0 else (findIndex p xs).map (· + 1)

/-- One iteration of the working-tree overlay loop in `getAheadFilesQuery`
(lines 259-265): `index = files.findIndex(f => f.fileName === wf.fileName)`;
if found, `files.splice(index, 1, wf)` (replace in place), else
`files.push(wf)` (append). -/
def overlayOne (files : List GitFile) (wf : GitFile) : List GitFile :=
  match findIndex (fun f => f.fileName == wf.fileName) files with
  | some i => files.set i wf
  | none => files ++ [wf]

/-- The whole `for (const wf of workingFiles)` loop of `getAheadFilesQuery`. -/
def overlayWorkingFiles (files workingFiles : List GitFile) : List GitFile :=
  workingFiles.foldl overlayOne files

/-- The `files` computation of `getAheadFilesQuery` (lines 249-271):
`historical` is the result of the three-dot diff-status, `workingFiles` the
result of the diff-status against `HEAD` (fetched only when comparing with
the working tree); `none` models `undefined`. -/
def getAheadFiles (compareWithWorkingTree : Bool)
    (historical workingFiles : Option (List GitFile)) : Option (List GitFile) :=
  if compareWithWorkingTree then
    match workingFiles with
    | some wfs =>
      match historical with
      | some fs => some (overlayWorkingFiles fs wfs)
      | none => some wfs
    | none => historical
  else historical

/-- JavaScript `x || 'HEAD'` on the optional compare-with ref
(`this._compareWith?.ref || 'HEAD'`, lines 43 and 51): `undefined` and the
empty string are both falsy and default to `"HEAD"`. -/
def orHEAD : Option String → String
  | none => "HEAD"
  | some s => if s = "" then "HEAD" else s

/-- Directional reference pair `{ ref1, ref2 }`. -/
structure RangePair where
  ref1 : String
  ref2 : String
deriving DecidableEq, Repr

/-- The `ahead` accessor (lines 41-46):
`{ref1: compareWith?.ref || 'HEAD', ref2: branch.ref}`. -/
def aheadPair (compareWith : Option BranchComparison) (branchRef : String) : RangePair :=
  { ref1 := orHEAD (compareWith.map BranchComparison.ref), ref2 := branchRef }

/-- The `behind` accessor (lines 48-53):
`{ref1: branch.ref, ref2: compareWith?.ref || 'HEAD'}`. -/
def behindPair (compareWith : Option BranchComparison) (branchRef : String) : RangePair :=
  { ref1 := branchRef, ref2 := orHEAD (compareWith.map BranchComparison.ref) }

/-- The branch identity key used by `loadCompareWith`/`updateCompareWith`
(lines 335 and 356): `` `${branch.id}${branch.current ? '+current' : ''}` ``. -/
def branchComparisonId (branchId : String) (current : Bool) : String :=
  branchId ++ (if current then "+current" else "")

/-- Merge-base resolution of `getChildren` (lines 73-75):
`getMergeBase(..., {forkPoint: true}) ?? getMergeBase(...)`. The plain
merge base is a thunk because `??` evaluates its right operand exactly when
the left is nullish; the returned flag records whether the fallback call was
made. -/
def resolveMergeBase (forkPointResult : Option String) (plainResult : Unit → Option String) :
    Option String × Bool :=
  match forkPointResult with
  | some r => (some r, false)
  | none => (plainResult (), true)

/-- Expression `files.ref1` of the Behind child (line 88):
`compareWithWorkingTree ? '' : mergeBase ?? behind.ref1`. -/
def behindFilesRef1 (compareWithWorkingTree : Bool) (mergeBase : Option String)
    (behindRef1 : String) : String :=
  if compareWithWorkingTree then "" else mergeBase.getD behindRef1

/-- Expression `files.ref1` of the Ahead child (line 111): `mergeBase ?? ahead.ref1`. -/
def aheadFilesRef1 (mergeBase : Option String) (aheadRef1 : String) : String :=
  mergeBase.getD aheadRef1

/-- The `GitLog` object returned by `Container.git.getLog` and by its `more`
continuation: the entries fetched so far (modelled as commit ids), the
`hasMore` flag, and the result the next `more(limit)` call would produce.
`moreRes = none` covers both an absent `more` and a `more` that resolves to
`undefined` — in either case the wrapper keeps its current log. -/
inductive GitLog where
  | mk (commits : List Nat) (hasMore : Bool) (moreRes : Option GitLog)

/-- Entries of a `GitLog`. -/
def GitLog.commits : GitLog → List Nat
  | .mk cs _ _ => cs

/-- Flag `hasMore` of a `GitLog`. -/
def GitLog.hasMore : GitLog → Bool
  | .mk _ hm _ => hm

/-- Result of the underlying `more` call of a `GitLog`. -/
def GitLog.moreRes : GitLog → Option GitLog
  | .mk _ _ mr => mr

/-- Modelled from the spec: the contract of the external git query service's
`getLog`/`more` (spec §4.3, §6) — that code is not under src/. A well-formed
log chain only offers `more` while `hasMore` is true, and each `more` result
extends the already-fetched entries (same cursor, append not replace). -/
inductive GitLog.WF : GitLog → Prop where
  | last (cs : List Nat) (hm : Bool) : GitLog.WF (.mk cs hm none)
  | step (cs : List Nat) (l' : GitLog) (happ : ∃ t, l'.commits = cs ++ t)
      (hwf : GitLog.WF l') : GitLog.WF (.mk cs true (some l'))

/-- The mutable `results` object built by `getCommitsQuery` (lines 299-310):
`log` and `hasMore` (`log?.hasMore ?? true`). -/
structure CommitsQueryResults where
  log : Option GitLog
  hasMore : Bool

/-- The initial `results` value of `getCommitsQuery` (lines 299-302):
`{log: log, hasMore: log?.hasMore ?? true}` where `log` is what `getLog`
returned (`none` models `undefined`). -/
def initialResults (log : Option GitLog) : CommitsQueryResults :=
  { log := log, hasMore := (log.map GitLog.hasMore).getD true }

/-- One call of the `results.more` closure (lines 304-307):
`results.log = (await results.log?.more?.(limit)) ?? results.log;
results.hasMore = results.log?.hasMore ?? true`. The closure is installed
once, iff the initial `hasMore` was true, and never removed. -/
def moreStep (r : CommitsQueryResults) : CommitsQueryResults :=
  let newLog : Option GitLog :=
    match r.log with
    | none => r.log
    | some l =>
      match l.moreRes with
      | none => r.log
      | some l' => some l'
  { log := newLog, hasMore := (newLog.map GitLog.hasMore).getD true }

/-- The ordered entry sequence exposed by a paged result. -/
def CommitsQueryResults.entries (r : CommitsQueryResults) : List Nat :=
  (r.log.map GitLog.commits).getD []

/-- Invariant of the `results` state: the contained log is well-formed and
`hasMore` is in sync with it (`log?.hasMore ?? true`). -/
def RInv (r : CommitsQueryResults) : Prop :=
  (∀ l, r.log = some l → l.WF) ∧ r.hasMore = (r.log.map GitLog.hasMore).getD true

/-- A persisted entry of the `BranchComparisons` workspace-state mapping:
either a legacy bare ref string or a structured `BranchComparison`. -/
inductive StoredComparison where
  | legacy (ref : String)
  | structured (c : BranchComparison)
deriving DecidableEq, Repr

/-- The in-memory and persisted state touched by the node's mutating
operations: `_compareWith`, whether `_children` is cached, the persisted
`BranchComparisons` mapping (`none` models the key being absent from
workspace state), the number of `triggerNodeChange` signals fired, and the
node's `showComparison` default mode. -/
structure NodeModel where
  compareWith : Option BranchComparison
  childrenCached : Bool
  store : Option (String → Option StoredComparison)
  refreshes : Nat
  showComparison : ViewShowBranchComparison

/-- Lookup `comparisons?.[id]` in the persisted mapping. -/
def storeLookup (store : Option (String → Option StoredComparison)) (k : String) :
    Option StoredComparison :=
  match store with
  | none => none
  | some f => f k

/-- The object spread `{...compareWith}` (line 359): a field-by-field fresh
copy of the target. -/
def copyComparison (c : BranchComparison) : BranchComparison :=
  { ref := c.ref, dots := c.dots, type := c.type }

/-- Method `updateCompareWith` (lines 348-365): sets `_compareWith`, reads the
latest full persisted mapping (empty object when absent), then either writes
a fresh copy of the target under the branch identity key or removes that
entry (`const { [id]: _, ...rest } = comparisons`), and persists the result. -/
def updateCompareWith (m : NodeModel) (id : String) (cw : Option BranchComparison) :
    NodeModel :=
  let comparisons := m.store.getD (fun _ => none)
  let comparisons' : String → Option StoredComparison :=
    match cw with
    | some c => fun k => if k = id then some (.structured (copyComparison c)) else comparisons k
    | none => fun k => if k = id then none else comparisons k
  { m with compareWith := cw, store := some comparisons' }

/-- Method `clear` (lines 182-191): returns immediately when `_compareWith` is
already unset; otherwise clears it, persists the removal via
`updateCompareWith(undefined)`, drops `_children`, and fires
`triggerNodeChange`. -/
def clear (m : NodeModel) (id : String) : NodeModel :=
  match m.compareWith with
  | none => m
  | some _ =>
    let m1 := updateCompareWith { m with compareWith := none } id none
    { m1 with childrenCached := false, refreshes := m1.refreshes + 1 }

/-- Method `loadCompareWith` (lines 332-346): looks up the branch identity key in
the persisted mapping; a bare string entry (legacy format) is normalized to
`{ref, notation: undefined, type: showComparison}`, a structured entry is
taken as is, a missing entry (or missing mapping) yields `undefined`. -/
def loadCompareWithFn (store : Option (String → Option StoredComparison)) (id : String)
    (showComparison : ViewShowBranchComparison) : Option BranchComparison :=
  match storeLookup store id with
  | some (.legacy s) => some { ref := s, dots := none, type := showComparison }
  | some (.structured c) => some c
  | none => none

/-- Method `refresh` (lines 198-203): drops the cached `_children` and re-runs
`loadCompareWith`. -/
def refresh (m : NodeModel) (id : String) : NodeModel :=
  { m with
    childrenCached := false
    compareWith := loadCompareWithFn m.store id m.showComparison }

/-- A concrete comparison target used to instantiate the theorems. -/
def sampleComparison : BranchComparison :=
  { ref := "dev", dots := none, type := .branch }

/-- A concrete node state (no compare-with target, no persisted mapping)
used to instantiate the theorems. -/
def sampleModel : NodeModel :=
  { compareWith := none
    childrenCached := false
    store := none
    refreshes := 0
    showComparison := .branch }

/-!
## Theorems
-/

theorem findIndex_some (p : α → Bool) :
    ∀ (l : List α) (i : Nat), findIndex p l = some i → ∃ x, l[i]? = some x ∧ p x = true := by
  intro l
  induction l with
  | nil => intro i h; simp [findIndex] at h
  | cons x xs ih =>
    intro i h
    by_cases hp : p x = true
    · simp [findIndex, hp] at h
      exact ⟨x, by simp [← h], hp⟩
    · simp [findIndex, hp] at h
      obtain ⟨j, hj, hij⟩ := h
      obtain ⟨y, hy, hpy⟩ := ih j hj
      exact ⟨y, by simpa [← hij] using hy, hpy⟩

theorem overlayOne_untouched (files : List GitFile) (wf x : GitFile) (i : Nat)
    (hx : files[i]? = some x) (hne : x.fileName ≠ wf.fileName) :
    (overlayOne files wf)[i]? = some x := by
  unfold overlayOne
  cases hfi : findIndex (fun f => f.fileName == wf.fileName) files with
  | none =>
    have hlt : i < files.length := by
      rcases List.getElem?_eq_some.mp hx with ⟨h, _⟩
      exact h
    rw [List.getElem?_append_left hlt]
    exact hx
  | some j =>
    obtain ⟨y, hy, hpy⟩ := findIndex_some _ files j hfi
    have hyname : y.fileName = wf.fileName := by simpa using hpy
    have hij : i ≠ j := by
      intro h
      rw [h, hy] at hx
      exact hne (by rw [Option.some.injEq] at hx; rw [hx] at hyname; exact hyname)
    rw [List.getElem?_set_ne (Ne.symm hij)]
    exact hx

theorem overlay_untouched :
    ∀ (workingFiles files : List GitFile) (x : GitFile) (i : Nat),
      files[i]? = some x → (∀ wf ∈ workingFiles, x.fileName ≠ wf.fileName) →
      (overlayWorkingFiles files workingFiles)[i]? = some x := by
  intro workingFiles
  induction workingFiles with
  | nil => intro files x i hx _; exact hx
  | cons wf wfs ih =>
    intro files x i hx hall
    have h1 : (overlayOne files wf)[i]? = some x :=
      overlayOne_untouched files wf x i hx (hall wf (by simp))
    have h2 : overlayWorkingFiles files (wf :: wfs)
        = overlayWorkingFiles (overlayOne files wf) wfs := rfl
    rw [h2]
    exact ih (overlayOne files wf) x i h1 (fun w hw => hall w (by simp [hw]))

/-- C2: in working-tree comparison mode the ahead-files query merges the
working-tree diff-status into the historical diff-status by filename: each
working-tree entry replaces the historical entry with the same filename in
place when present and is appended otherwise; historical entries whose
filename is untouched by the working tree keep their value and position; and
on the spec's example, `[{A, modified}, {B, added}]` overlaid with
`[{B, deleted}, {C, added}]` yields `[{A, modified}, {B, deleted}, {C, added}]`. -/
theorem aheadFilesOverlay_correct (files workingFiles : List GitFile) (wf x : GitFile)
    (i : Nat) :
    getAheadFiles true (some files) (some workingFiles)
        = some (overlayWorkingFiles files workingFiles)
    ∧ (findIndex (fun f => f.fileName == wf.fileName) files = some i →
        overlayOne files wf = files.set i wf)
    ∧ (findIndex (fun f => f.fileName == wf.fileName) files = none →
        overlayOne files wf = files ++ [wf])
    ∧ (files[i]? = some x → (∀ w ∈ workingFiles, x.fileName ≠ w.fileName) →
        (overlayWorkingFiles files workingFiles)[i]? = some x)
    ∧ getAheadFiles true
        (some [GitFile.mk "A" "modified", GitFile.mk "B" "added"])
        (some [GitFile.mk "B" "deleted", GitFile.mk "C" "added"])
      = some [GitFile.mk "A" "modified", GitFile.mk "B" "deleted", GitFile.mk "C" "added"] := by
  refine ⟨rfl, fun h => ?_, fun h => ?_,
    fun hx hall => overlay_untouched workingFiles files x i hx hall, by decide⟩
  · unfold overlayOne
    rw [h]
  · unfold overlayOne
    rw [h]

/-- Witness for `aheadFilesOverlay_correct` at the spec's example input. -/
theorem aheadFilesOverlay_correct_witness :
    ([GitFile.mk "A" "modified", GitFile.mk "B" "added"] : List GitFile)[0]?
        = some (GitFile.mk "A" "modified")
    ∧ (overlayWorkingFiles [GitFile.mk "A" "modified", GitFile.mk "B" "added"]
        [GitFile.mk "B" "deleted", GitFile.mk "C" "added"])[0]?
        = some (GitFile.mk "A" "modified") :=
  ⟨by decide,
    (aheadFilesOverlay_correct [GitFile.mk "A" "modified", GitFile.mk "B" "added"]
        [GitFile.mk "B" "deleted", GitFile.mk "C" "added"]
        (GitFile.mk "B" "deleted") (GitFile.mk "A" "modified") 0).2.2.2.1
      (by decide) (by decide)⟩

/-- C9: in working-tree comparison mode, an `undefined` historical
diff-status together with a working-tree sequence yields exactly the
working-tree sequence, and an `undefined` working-tree diff-status returns
the historical result (possibly `undefined`) unchanged. -/
theorem aheadFiles_absent_sides (historical : Option (List GitFile))
    (workingFiles : List GitFile) :
    getAheadFiles true none (some workingFiles) = some workingFiles
    ∧ getAheadFiles true historical none = historical :=
  ⟨rfl, rfl⟩

/-- C4: the `ahead` and `behind` accessors are inverses
(`ahead.ref1 = behind.ref2`, `ahead.ref2 = behind.ref1`); the compare-with
side defaults to `"HEAD"` when no compare-with ref is set or it is the empty
string, and the other side is the base branch's ref. -/
theorem ahead_behind_inverse (compareWith : Option BranchComparison) (branchRef : String) :
    (aheadPair compareWith branchRef).ref1 = (behindPair compareWith branchRef).ref2
    ∧ (aheadPair compareWith branchRef).ref2 = (behindPair compareWith branchRef).ref1
    ∧ ((compareWith = none ∨ ∃ c, compareWith = some c ∧ c.ref = "") →
        (aheadPair compareWith branchRef).ref1 = "HEAD"
        ∧ (behindPair compareWith branchRef).ref2 = "HEAD")
    ∧ (aheadPair compareWith branchRef).ref2 = branchRef
    ∧ (behindPair compareWith branchRef).ref1 = branchRef := by
  refine ⟨rfl, rfl, ?_, rfl, rfl⟩
  rintro (rfl | ⟨c, rfl, hc⟩)
  · exact ⟨rfl, rfl⟩
  · constructor <;> simp [aheadPair, behindPair, orHEAD, hc]

/-- Witness for `ahead_behind_inverse` with no compare-with target set. -/
theorem ahead_behind_inverse_witness :
    (aheadPair none "main").ref1 = "HEAD" ∧ (aheadPair none "main").ref2 = "main" :=
  ⟨((ahead_behind_inverse none "main").2.2.1 (Or.inl rfl)).1,
    (ahead_behind_inverse none "main").2.2.2.1⟩

theorem string_append_right_cancel {s t u : String} (h : s ++ u = t ++ u) : s = t := by
  have hd : s.data ++ u.data = t.data ++ u.data := by
    have hdata : (s ++ u).data = (t ++ u).data := by rw [h]
    simpa using hdata
  exact String.ext (List.append_cancel_right hd)

theorem string_append_ne_self {s u : String} (hu : u ≠ "") : s ++ u ≠ s := by
  intro h
  have hlen := congrArg String.length h
  rw [String.length_append] at hlen
  have hz : u.length = 0 := by omega
  apply hu
  cases u with
  | mk d =>
    cases d with
    | nil => rfl
    | cons a as => simp [String.length] at hz

/-- C5 counterexample: two different branch ids produce the same identity
key — `branchComparisonId "main" true` collides with
`branchComparisonId "main+current" false`, so the key scheme is not
injective across logically different branches. -/
theorem branchComparisonId_collision :
    branchComparisonId "main" true = branchComparisonId "main+current" false
    ∧ ("main" : String) ≠ "main+current" :=
  ⟨by decide, by decide⟩

/-- C5 amended: for every branch id, the identity key with `current = true`
differs from the one with `current = false`; and the key is injective on
(branch id, current) pairs provided neither id equals the other with
`"+current"` appended (e.g. when no branch id ends in `"+current"`). -/
theorem branchComparisonId_injective_amended (id1 id2 branchId : String) (c1 c2 : Bool)
    (h1 : id2 ≠ id1 ++ "+current") (h2 : id1 ≠ id2 ++ "+current") :
    branchComparisonId branchId true ≠ branchComparisonId branchId false
    ∧ (branchComparisonId id1 c1 = branchComparisonId id2 c2 → id1 = id2 ∧ c1 = c2) := by
  constructor
  · unfold branchComparisonId
    simp
    exact string_append_ne_self (u := "+current") (by decide)
  · intro h
    unfold branchComparisonId at h
    cases c1 <;> cases c2 <;> simp at h
    · exact ⟨h, rfl⟩
    · exact absurd h h2
    · exact absurd h.symm h1
    · exact ⟨string_append_right_cancel h, rfl⟩

/-- Witness for `branchComparisonId_injective_amended` at concrete ids. -/
theorem branchComparisonId_injective_amended_witness :
    branchComparisonId "main" true ≠ branchComparisonId "main" false :=
  (branchComparisonId_injective_amended "a" "b" "main" true true
    (by decide) (by decide)).1

/-- C3 counterexample: with working-tree comparison and both merge bases
unresolved, the Behind child's `files.ref1` is the empty string (the working
tree), not `behind.ref1` (`"main"` here) — so the claim's unconditional
fallback to `behind.ref1` fails. -/
theorem behindFilesRef1_workingTree_counterexample :
    behindFilesRef1 true none "main" ≠ "main" := by decide

/-- C3 amended: the resolver attempts the plain merge base exactly when the
fork-point merge base resolves to `undefined`, and returns the fork-point
result otherwise; when both resolve to `undefined`, the Ahead child's
`files.ref1` falls back to `ahead.ref1`, and the Behind child's `files.ref1`
falls back to `behind.ref1` unless comparing against the working tree, in
which case it is the empty string (working tree) regardless of the merge
base. -/
theorem mergeBase_fallback_amended (fp : Option String) (pl : Unit → Option String)
    (aheadRef1 behindRef1 : String) :
    ((resolveMergeBase fp pl).2 = true ↔ fp = none)
    ∧ (∀ r, fp = some r → (resolveMergeBase fp pl).1 = some r)
    ∧ (fp = none → (resolveMergeBase fp pl).1 = pl ())
    ∧ aheadFilesRef1 none aheadRef1 = aheadRef1
    ∧ behindFilesRef1 false none behindRef1 = behindRef1
    ∧ behindFilesRef1 true none behindRef1 = "" := by
  refine ⟨?_, ?_, ?_, rfl, rfl, rfl⟩
  · cases fp <;> simp [resolveMergeBase]
  · intro r hr
    subst hr
    rfl
  · intro hr
    subst hr
    rfl

/-- Witness for `mergeBase_fallback_amended` with both merge bases absent. -/
theorem mergeBase_fallback_amended_witness :
    (resolveMergeBase none (fun _ => none)).1 = none
    ∧ behindFilesRef1 false none "main" = "main" :=
  ⟨(mergeBase_fallback_amended none (fun _ => none) "a" "main").2.2.1 rfl,
    (mergeBase_fallback_amended none (fun _ => none) "a" "main").2.2.2.2.1⟩

/-- C7: updating the stored comparison writes a field-by-field copy of the
target under the branch identity key (the copy equals the target as a
value) when the target is defined, removes the entry entirely when it is
`undefined`, and in both cases every other key of the read-modify-written
mapping keeps its previous value. -/
theorem updateCompareWith_store_correct (m : NodeModel) (id k : String)
    (c : BranchComparison) :
    copyComparison c = c
    ∧ storeLookup (updateCompareWith m id (some c)).store id
        = some (.structured (copyComparison c))
    ∧ storeLookup (updateCompareWith m id none).store id = none
    ∧ (k ≠ id →
        storeLookup (updateCompareWith m id (some c)).store k = storeLookup m.store k
        ∧ storeLookup (updateCompareWith m id none).store k = storeLookup m.store k) := by
  refine ⟨rfl, by simp [updateCompareWith, storeLookup], by simp [updateCompareWith, storeLookup],
    fun hk => ?_⟩
  cases m with
  | mk cw cc st rf sc =>
    cases st with
    | none => constructor <;> simp [updateCompareWith, storeLookup, hk]
    | some f => constructor <;> simp [updateCompareWith, storeLookup, hk]

/-- Witness for `updateCompareWith_store_correct`: a write under one key
leaves another key's lookup unchanged. -/
theorem updateCompareWith_store_correct_witness :
    storeLookup (updateCompareWith sampleModel "branch1" (some sampleComparison)).store "other"
      = storeLookup sampleModel.store "other" :=
  ((updateCompareWith_store_correct sampleModel "branch1" "other" sampleComparison).2.2.2
    (by decide)).1

/-- C6: `clear()` on a node with no compare-with target is the identity on
the whole state (no store write, no refresh signal, target and cached
children untouched); on a configured node it clears the target, removes the
persisted entry, drops the cached children, and fires exactly one refresh
signal. -/
theorem clear_correct (m : NodeModel) (id : String) (c : BranchComparison) :
    (m.compareWith = none → clear m id = m)
    ∧ (m.compareWith = some c →
        (clear m id).compareWith = none
        ∧ storeLookup (clear m id).store id = none
        ∧ (clear m id).childrenCached = false
        ∧ (clear m id).refreshes = m.refreshes + 1) := by
  constructor
  · intro h
    simp [clear, h]
  · intro h
    refine ⟨?_, ?_, ?_, ?_⟩ <;> simp [clear, h, updateCompareWith, storeLookup]

/-- Witness for `clear_correct`: clearing the unconfigured sample state is a
no-op. -/
theorem clear_correct_witness : clear sampleModel "branch1" = sampleModel :=
  (clear_correct sampleModel "branch1" sampleComparison).1 rfl

/-- C8: loading the persisted comparison normalizes a legacy bare-string
entry into `{ref, notation: undefined, type: <caller default>}` (so a stored
`"main"` loads as `{ref := "main", dots := none, type := sc}`), loads a
structured entry unchanged, and loads a missing entry as `undefined`. -/
theorem loadCompareWith_normalizes (store : Option (String → Option StoredComparison))
    (id s : String) (c : BranchComparison) (sc : ViewShowBranchComparison) :
    (storeLookup store id = some (.legacy s) →
        loadCompareWithFn store id sc = some { ref := s, dots := none, type := sc })
    ∧ (storeLookup store id = some (.structured c) → loadCompareWithFn store id sc = some c)
    ∧ (storeLookup store id = none → loadCompareWithFn store id sc = none)
    ∧ loadCompareWithFn (some (fun k => if k = id then some (.legacy "main") else none)) id sc
        = some { ref := "main", dots := none, type := sc } := by
  refine ⟨fun h => ?_, fun h => ?_, fun h => ?_, ?_⟩
  · simp [loadCompareWithFn, h]
  · simp [loadCompareWithFn, h]
  · simp [loadCompareWithFn, h]
  · simp [loadCompareWithFn, storeLookup]

/-- Witness for `loadCompareWith_normalizes` at a concrete legacy entry. -/
theorem loadCompareWith_normalizes_witness :
    loadCompareWithFn (some (fun k => if k = "b1" then some (.legacy "main") else none))
        "b1" .working
      = some { ref := "main", dots := none, type := .working } :=
  (loadCompareWith_normalizes
      (some (fun k => if k = "b1" then some (.legacy "main") else none))
      "b1" "main" sampleComparison .working).1 (by simp [storeLookup])

/-- C10: `refresh()` drops the cached children, leaves the persisted store
untouched, and re-reads it: afterwards the in-memory compare-with target is
the persisted entry for the branch identity — normalized when it is a
legacy string, as-is when structured, `undefined` when missing. -/
theorem refresh_reloads (m : NodeModel) (id s : String) (c : BranchComparison) :
    (refresh m id).childrenCached = false
    ∧ (refresh m id).store = m.store
    ∧ (refresh m id).compareWith = loadCompareWithFn m.store id m.showComparison
    ∧ (storeLookup m.store id = some (.legacy s) →
        (refresh m id).compareWith = some { ref := s, dots := none, type := m.showComparison })
    ∧ (storeLookup m.store id = some (.structured c) → (refresh m id).compareWith = some c)
    ∧ (storeLookup m.store id = none → (refresh m id).compareWith = none) := by
  refine ⟨rfl, rfl, rfl, fun h => ?_, fun h => ?_, fun h => ?_⟩ <;>
    simp [refresh, loadCompareWithFn, h]

/-- Witness for `refresh_reloads`: the sample state has no persisted entry,
so after `refresh` the target is `undefined`. -/
theorem refresh_reloads_witness :
    (refresh sampleModel "branch1").compareWith = none :=
  (refresh_reloads sampleModel "branch1" "main" sampleComparison).2.2.2.2.2 rfl

theorem moreStep_log_none (rhm : Bool) :
    moreStep { log := none, hasMore := rhm } = { log := none, hasMore := true } := rfl

theorem moreStep_more_absent (cs : List Nat) (hm rhm : Bool) :
    moreStep { log := some (.mk cs hm none), hasMore := rhm }
      = { log := some (.mk cs hm none), hasMore := hm } := rfl

theorem moreStep_more_present (cs : List Nat) (hm rhm : Bool) (l' : GitLog) :
    moreStep { log := some (.mk cs hm (some l')), hasMore := rhm }
      = { log := some l', hasMore := l'.hasMore } := rfl

/-- C1: the paged result built by `getCommitsQuery` keeps its invariant:
the initial result satisfies it, a `more(limit)` call preserves it, every
`more(limit)` call appends newly fetched entries to the existing ordered
sequence (never replacing or dropping prior entries) while updating
`hasMore`, and once `hasMore` is false a further `more(limit)` call leaves
the whole result — entries included — unchanged. The underlying `getLog`
result is assumed well-formed (`GitLog.WF`, modelled from the spec). -/
theorem commitsQuery_paging_invariant (log : Option GitLog) (r : CommitsQueryResults)
    (hlog : ∀ l, log = some l → l.WF) (h : RInv r) :
    RInv (initialResults log)
    ∧ RInv (moreStep r)
    ∧ (∃ t, (moreStep r).entries = r.entries ++ t)
    ∧ (r.hasMore = false → moreStep r = r) := by
  obtain ⟨hwf, hhm⟩ := h
  refine ⟨⟨hlog, rfl⟩, ?_⟩
  obtain ⟨rlog, rhm⟩ := r
  cases rlog with
  | none =>
    have hr : rhm = true := by simpa using hhm
    subst hr
    refine ⟨⟨?_, ?_⟩, ⟨[], ?_⟩, ?_⟩
    · intro l hl
      exact absurd hl (by simp [moreStep])
    · rfl
    · rfl
    · intro hf
      exact absurd hf (by decide)
  | some l =>
    have hl := hwf l rfl
    cases l with
    | mk cs hm mr =>
      have hr : rhm = hm := by simpa [GitLog.hasMore] using hhm
      subst hr
      cases mr with
      | none =>
        refine ⟨⟨?_, ?_⟩, ⟨[], ?_⟩, fun _ => ?_⟩
        · rw [moreStep_more_absent]
          exact hwf
        · rw [moreStep_more_absent]
          simp [GitLog.hasMore]
        · rw [moreStep_more_absent]
          simp [CommitsQueryResults.entries, GitLog.commits]
        · rw [moreStep_more_absent]
      | some l' =>
        cases hl with
        | step _ _ happ hwf' =>
          obtain ⟨t, ht⟩ := happ
          refine ⟨⟨?_, ?_⟩, ⟨t, ?_⟩, fun hf => nomatch hf⟩
          · intro l2 hl2
            rw [moreStep_more_present] at hl2
            injection hl2 with h2
            rw [← h2]
            exact hwf'
          · rw [moreStep_more_present]
            rfl
          · rw [moreStep_more_present]
            simpa [CommitsQueryResults.entries, GitLog.commits] using ht

/-- Witness for `commitsQuery_paging_invariant`: an exhausted one-page
result is left unchanged by a further `more` call. -/
theorem commitsQuery_paging_invariant_witness :
    moreStep { log := some (.mk [1] false none), hasMore := false }
      = { log := some (.mk [1] false none), hasMore := false } :=
  (commitsQuery_paging_invariant none { log := some (.mk [1] false none), hasMore := false }
      (fun _ hl => nomatch hl)
      ⟨fun l hl => by
        injection hl with h2
        rw [← h2]
        exact GitLog.WF.last [1] false, rfl⟩).2.2.2 rfl

end CompareBranch
